import Mathlib

set_option autoImplicit false
set_option maxHeartbeats 1000000

/-!
Verification of the simplekube/kit client-side apply engine against its
natural-language specification.

The Go sources embedded here are:
  * `pkg/k8s` null/empty field stripper: `DeleteNullInUnstructuredMap`,
    `DeleteNullInUnstructuredSlice`, `IsZero`;
  * the `apply` package three-way merge: `Merge`, `mergeToObserved`,
    `mergeMapToObserved`, `mergeArrayToObserved`, `mergeListMapToObserved`,
    `makeMapFromList`, `stringMergeKey`, `detectListMapKey`,
    `knownMergeKeys`;
  * the metadata system-field overlay: `overrideObjectMetaSystemFields`,
    `overrideField`, together with the three helpers those call from
    `k8s.io/apimachinery` (`NestedFieldNoCopy`, `SetNestedField`,
    `RemoveNestedField`).

Go `interface{}` values decoded from JSON are embedded as the inductive
type `Val`.  A Go `map[string]interface{}` becomes an association list
`List (String × Val)`: Go maps are unordered with unique keys, so the
association-list order is a canonical presentation and all map operations
below are content-faithful (lookups take the first matching entry,
`putEntry` replaces in place or appends).  A nil Go map or nil slice
behaves exactly like an empty one for every read the embedded code
performs, and both are represented by `[]`.
-/

/-- A Kubernetes unstructured document value, i.e. a Go `interface{}`
holding one of the JSON-decodable variants: null, string, int64, float64,
bool, `[]interface{}`, `map[string]interface{}`.  The extra constructor
`other` stands for a value of any unsupported dynamic Go type; its flag
records whether that value is the zero value of its type, which is all
the embedded code (the `IsZero` reflection check) observes about such
values: `int(0)` and `[]string(nil)` are `other true`, `int(7)` and
`[]string{}` are `other false`.  Go float64 payloads are carried as `Int`
(integral floats; no claim exercises fractional values), which keeps
Go's `%v` formatting equal to `toString`. -/
inductive Val : Type where
  | null : Val
  | str (s : String) : Val
  | int (n : Int) : Val
  | flt (n : Int) : Val
  | bool (b : Bool) : Val
  | list (elems : List Val) : Val
  | map (entries : List (String × Val)) : Val
  | other (zero : Bool) : Val

/-- Go `val == nil` on an `interface{}`. -/
def Val.isNull : Val → Bool
  | .null => true
  | _ => false

/-- Whether the dynamic type is `map[string]interface{}`. -/
def Val.isMap : Val → Bool
  | .map _ => true
  | _ => false

/-- Successful `val.(map[string]interface{})` assertion. -/
def Val.asMapEntries? : Val → Option (List (String × Val))
  | .map es => some es
  | _ => none

/-- Successful `val.([]interface{})` assertion. -/
def Val.asListElems? : Val → Option (List Val)
  | .list xs => some xs
  | _ => none

/-- Go `v, present := m[k]` on a `map[string]interface{}`. -/
def getEntry : List (String × Val) → String → Option Val
  | [], _ => none
  | (k, v) :: rest, key => if k = key then some v else getEntry rest key

/-- Go `m[k]` as a plain read: an absent key reads as the nil
interface, i.e. `null`. -/
def getDefault (m : List (String × Val)) (key : String) : Val :=
  (getEntry m key).getD .null

/-- Go `_, present := m[k]`. -/
def hasKey (m : List (String × Val)) (key : String) : Bool :=
  (getEntry m key).isSome

/-- Go `m[k] = v`: replace the existing entry in place, else append. -/
def putEntry : List (String × Val) → String → Val → List (String × Val)
  | [], key, v => [(key, v)]
  | (k, w) :: rest, key, v =>
      if k = key then (k, v) :: rest else (k, w) :: putEntry rest key v

/-- Go `delete(m, k)`. -/
def delEntry (m : List (String × Val)) (key : String) : List (String × Val) :=
  m.filter fun e => e.1 ≠ key

/-- Embeds `IsZero` (pkg/k8s nullops) applied to `reflect.ValueOf` of a
non-nil `interface{}`.  `reflect.Float64` and `reflect.Int64` are never
zero by the explicit carve-out in the source; every other kind reaching
this function from the stripper falls to the source's `default` branch,
which compares against the type's zero value: a string is zero iff `""`,
a bool is zero iff `false`.  The `[]interface{}` and
`map[string]interface{}` values the stripper passes here are non-nil
(a nil one is Go `val == nil` only when the interface itself is nil,
which the caller checks first; a typed nil slice or map of an
unsupported type is covered by `other`), so `IsNil` yields `false` for
them.  `other` carries its own zero flag.  The `null` case is
unreachable from the callers (their `val == nil` test fires first). -/
def IsZero : Val → Bool
  | .null => true
  | .str s => s == ""
  | .int _ => false
  | .flt _ => false
  | .bool b => b == false
  | .list _ => false
  | .map _ => false
  | .other z => z

mutual
/-- Embeds `DeleteNullInUnstructuredMap` (pkg/k8s nullops): for each
key/value, first skip the pair when `val == nil || IsZero(val)`, then
dispatch on the dynamic type: unsupported types abort with an error,
slices and maps are recursively stripped (a sub-map that strips to
nothing is dropped, unless it was empty to begin with, which is kept
as-is), scalars are kept.  Go's map iteration order is arbitrary; the
association list is processed in order, fixing one admissible order.
The `.null` match arm mirrors the unreachable `nil` member of the
source's type switch. -/
def DeleteNullInUnstructuredMap : List (String × Val) → Except String (List (String × Val))
  | [] => .ok []
  | (key, val) :: rest =>
    if val.isNull || IsZero val then DeleteNullInUnstructuredMap rest
    else
      match val with
      | .other _ => .error ("unsupported type: key " ++ key)
      | .list xs => do
          let slice ← DeleteNullInUnstructuredSlice xs
          let r ← DeleteNullInUnstructuredMap rest
          .ok ((key, .list slice) :: r)
      | .str s => do
          let r ← DeleteNullInUnstructuredMap rest
          .ok ((key, .str s) :: r)
      | .flt n => do
          let r ← DeleteNullInUnstructuredMap rest
          .ok ((key, .flt n) :: r)
      | .bool b => do
          let r ← DeleteNullInUnstructuredMap rest
          .ok ((key, .bool b) :: r)
      | .int n => do
          let r ← DeleteNullInUnstructuredMap rest
          .ok ((key, .int n) :: r)
      | .null => DeleteNullInUnstructuredMap rest
      | .map es =>
          if es.isEmpty then do
            let r ← DeleteNullInUnstructuredMap rest
            .ok ((key, .map es) :: r)
          else do
            let filteredSubMap ← DeleteNullInUnstructuredMap es
            let r ← DeleteNullInUnstructuredMap rest
            if filteredSubMap.isEmpty then .ok r
            else .ok ((key, .map filteredSubMap) :: r)

/-- Embeds `DeleteNullInUnstructuredSlice` (pkg/k8s nullops): the result
slice is preallocated with the input's length; a nil element leaves the
preallocated nil (null) in place at its index, scalars are copied
unchanged, slices and maps are recursively stripped in place, and an
unsupported element type aborts.  Note there is no `IsZero` test here,
unlike the map version. -/
def DeleteNullInUnstructuredSlice : List Val → Except String (List Val)
  | [] => .ok []
  | val :: rest =>
    if val.isNull then do
      let r ← DeleteNullInUnstructuredSlice rest
      .ok (.null :: r)
    else
      match val with
      | .other _ => .error "unsupported type"
      | .list xs => do
          let sub ← DeleteNullInUnstructuredSlice xs
          let r ← DeleteNullInUnstructuredSlice rest
          .ok (.list sub :: r)
      | .map es => do
          let sub ← DeleteNullInUnstructuredMap es
          let r ← DeleteNullInUnstructuredSlice rest
          .ok (.map sub :: r)
      | .null => do
          let r ← DeleteNullInUnstructuredSlice rest
          .ok (.null :: r)
      | v => do
          let r ← DeleteNullInUnstructuredSlice rest
          .ok (v :: r)
end

/-- Embeds `knownMergeKeys` (apply package), in source order: the first
match has the highest precedence. -/
def knownMergeKeys : List String :=
  ["uid", "id", "alias", "name", "key", "component",
   "containerPort", "container-port", "port", "ip"]

/-- One list's worth of `detectListMapKey`'s scan.  The state is the
`commonKeys` set: `none` before its one-time initialization from the
first item, `some ks` afterwards.  Result `none` embeds the immediate
`return ""` taken when an item is not a map; otherwise the updated
state is returned. -/
def pruneCommonKeys : Option (List String) → List Val → Option (Option (List String))
  | commonKeys, [] => some commonKeys
  | commonKeys, item :: rest =>
    match item with
    | .map itemMap =>
      match commonKeys with
      | none => pruneCommonKeys (some (itemMap.map Prod.fst)) rest
      | some ks => pruneCommonKeys (some (ks.filter fun k => hasKey itemMap k)) rest
    | _ => none

/-- The outer loop of `detectListMapKey` over the supplied lists. -/
def scanListsForCommonKeys : Option (List String) → List (List Val) → Option (Option (List String))
  | commonKeys, [] => some commonKeys
  | commonKeys, l :: ls =>
    match pruneCommonKeys commonKeys l with
    | none => none
    | some ck => scanListsForCommonKeys ck ls

/-- Go `commonKeys[key]` on the (possibly still nil) common-key set. -/
def memCommonKeys : Option (List String) → String → Bool
  | none, _ => false
  | some ks, key => ks.contains key

/-- Embeds `detectListMapKey` (apply package): scan every item of every
supplied list, returning "" as soon as a non-map item is found, pruning
the common-key set otherwise; then return the first `knownMergeKeys`
entry contained in the final set, or "" if none is (a nil set, as left
by all-empty input lists, contains nothing). -/
def detectListMapKey (lists : List (List Val)) : String :=
  match scanListsForCommonKeys none lists with
  | none => ""
  | some commonKeys =>
    match knownMergeKeys.find? fun key => memCommonKeys commonKeys key with
    | some key => key
    | none => ""

/-- The merge-key detector as the specification words it: the empty
string whenever any element of any supplied list is not a map; otherwise
the first name in the fixed priority order that is a field of every
element of every supplied list, and the empty string if no candidate is
common to all elements, in particular when all supplied lists are
empty. -/
def detectListMapKeySpec (lists : List (List Val)) : String :=
  let elems := lists.flatten
  if elems.any fun e => !e.isMap then ""
  else
    (knownMergeKeys.find? fun key =>
      !elems.isEmpty && elems.all fun e => hasKey (e.asMapEntries?.getD []) key).getD ""

/-- Embeds Go `v, ok := x.(map[string]interface{})`: the pair is the
asserted value (with `none` standing for the nil map a failed assertion
produces) and the `ok` flag. -/
def asMapAssert : Val → Option (List (String × Val)) × Bool
  | .map es => (some es, true)
  | _ => (none, false)

/-- Embeds Go `v, ok := x.([]interface{})` likewise. -/
def asListAssert : Val → Option (List Val) × Bool
  | .list xs => (some xs, true)
  | _ => (none, false)

/-- The condition of the `type mismatch` error returns in
`mergeToObserved`'s map arm, exactly as the source writes it:
`!ok && lastAppliedVal != nil` — testing the *asserted* value, not the
original interface.  A failed Go type assertion always leaves the
asserted value nil, so this guard can never hold (theorem
`typeMismatchGuardMap_false` below): the `TypeMismatch` error paths of
the merge are dead code. -/
def typeMismatchGuardMap (x : Val) : Bool :=
  let (v, ok) := asMapAssert x
  !ok && v.isSome

/-- The same dead guard for the list arm: `!ok && lastAppliedVal != nil`
on an asserted `[]interface{}`. -/
def typeMismatchGuardList (x : Val) : Bool :=
  let (v, ok) := asListAssert x
  !ok && v.isSome

/-- Embeds `stringMergeKey` (apply package): strings pass through,
anything else is rendered with `fmt.Sprintf("%v", val)`.  Scalar
renderings match Go exactly (an integral float64 renders without a
decimal point, nil renders as `<nil>`); composite values get an
abbreviated rendering, which no theorem below exercises. -/
def stringMergeKey : Val → String
  | .str s => s
  | .int n => toString n
  | .flt n => toString n
  | .bool true => "true"
  | .bool false => "false"
  | .null => "<nil>"
  | .list _ => "[...]"
  | .map _ => "map[...]"
  | .other _ => "<other>"

/-- The accumulator loop of `makeMapFromList`: Go map insertion, so a
later item with the same stringified key overwrites an earlier one.
Items are maps because `detectListMapKey` verified as much before this
is reached (a non-map item, which would panic in Go, contributes its
nil-map assertion). -/
def makeMapFromListAux (mergeKey : String) (acc : List (String × Val)) : List Val → List (String × Val)
  | [] => acc
  | item :: rest =>
      let itemMap := item.asMapEntries?.getD []
      makeMapFromListAux mergeKey
        (putEntry acc (stringMergeKey (getDefault itemMap mergeKey)) item) rest

/-- Embeds `makeMapFromList` (apply package). -/
def makeMapFromList (mergeKey : String) (list : List Val) : List (String × Val) :=
  makeMapFromListAux mergeKey [] list

/-- The first reconstruction loop of `mergeListMapToObserved`: emit, in
original observed order, every observed item whose merge-key value is
still present in the merged map, remembering the emitted keys.  There is
no duplicate check in this loop: an observed list with two items of the
same merge-key value emits the merged item twice. -/
def reconstructLoop1 (mergeKey : String) (mergedMap : List (String × Val))
    (added : List String) (out : List Val) : List Val → List String × List Val
  | [] => (added, out)
  | item :: rest =>
      let valueAsKey := stringMergeKey (getDefault (item.asMapEntries?.getD []) mergeKey)
      match getEntry mergedMap valueAsKey with
      | some mergedVal =>
          reconstructLoop1 mergeKey mergedMap (valueAsKey :: added) (out ++ [mergedVal]) rest
      | none => reconstructLoop1 mergeKey mergedMap added out rest

/-- The second reconstruction loop: append, in desired order, the merged
item for every desired merge-key value not already added (an absent map
entry appends Go's nil interface, i.e. null). -/
def reconstructLoop2 (mergeKey : String) (mergedMap : List (String × Val))
    (added : List String) (out : List Val) : List Val → List Val
  | [] => out
  | item :: rest =>
      let valueAsKey := stringMergeKey (getDefault (item.asMapEntries?.getD []) mergeKey)
      if added.contains valueAsKey then
        reconstructLoop2 mergeKey mergedMap added out rest
      else
        reconstructLoop2 mergeKey mergedMap (valueAsKey :: added)
          (out ++ [getDefault mergedMap valueAsKey]) rest

mutual
/-- Size of a value, for the merge recursion's termination measure. -/
def Val.vsize : Val → Nat
  | .list xs => 1 + Val.lsize xs
  | .map es => 1 + Val.msize es
  | _ => 1

/-- Size of a list of values (keys are not counted). -/
def Val.lsize : List Val → Nat
  | [] => 0
  | x :: t => 1 + Val.vsize x + Val.lsize t

/-- Size of an entry list (keys are not counted). -/
def Val.msize : List (String × Val) → Nat
  | [] => 0
  | (_, v) :: t => 1 + Val.vsize v + Val.msize t
end

mutual
/-- Embeds `mergeToObserved` (apply package).  Dispatch is on the
observed value's variant.  In the map and list arms the source asserts
the other two inputs to the same variant and would return a
`type mismatch` error under `!ok && assertedVal != nil`; that guard can
never hold (`typeMismatchGuardMap_false`, `typeMismatchGuardList_false`),
so this embedding proceeds directly with the asserted values, a failed
assertion contributing the empty (nil) map or slice, and the function is
total: no call of the Go original ever returns a non-nil error.  The
default arm is the leaf case: observed is scalar or null and the desired
value is the final merge value.  Field paths only feed the dead error
messages and are omitted. -/
def mergeToObserved (observed lastApplied desired : Val) : Val :=
  match observed with
  | .map observedVal =>
      .map (mergeMapToObserved observedVal
        ((asMapAssert lastApplied).1.getD [])
        ((asMapAssert desired).1.getD []))
  | .list observedVal =>
      mergeArrayToObserved observedVal
        ((asListAssert lastApplied).1.getD [])
        ((asListAssert desired).1.getD [])
  | _ => desired
termination_by 4 * desired.vsize
decreasing_by
  · have h1 : ∀ v : Val, 1 ≤ v.vsize := by
      intro v; cases v <;> simp [Val.vsize]
    cases desired <;> simp [asMapAssert, Val.vsize, Val.msize] <;> have := h1 observed <;> omega
  · have h1 : ∀ v : Val, 1 ≤ v.vsize := by
      intro v; cases v <;> simp [Val.vsize]
    cases desired <;> simp [asListAssert, Val.vsize, Val.lsize] <;> have := h1 observed <;> omega

/-- Embeds `mergeMapToObserved`: the deletion pass removes every
observed key that is present in lastApplied but absent from desired;
the upsert pass then recursively merges every desired entry into
observed. -/
def mergeMapToObserved (observed lastApplied desired : List (String × Val)) : List (String × Val) :=
  mergeUpsert
    (observed.filter fun e => !(hasKey lastApplied e.1 && !hasKey desired e.1))
    lastApplied desired
termination_by 4 * Val.msize desired + 1
decreasing_by omega

/-- The upsert loop of `mergeMapToObserved`:
`observed[key] = mergeToObserved(observed[key], lastApplied[key], desiredVal)`
for each desired entry, in order, on the progressively updated
observed map. -/
def mergeUpsert (observed lastApplied : List (String × Val)) : List (String × Val) → List (String × Val)
  | [] => observed
  | (key, desiredVal) :: rest =>
      mergeUpsert
        (putEntry observed key
          (mergeToObserved (getDefault observed key) (getDefault lastApplied key) desiredVal))
        lastApplied rest
termination_by desired => 4 * Val.msize desired
decreasing_by
  all_goals simp [Val.msize]
  all_goals omega

/-- Embeds `mergeArrayToObserved`: if a merge key is detected, merge as
a list of maps; otherwise the desired array is the merge result. -/
def mergeArrayToObserved (observed lastApplied desired : List Val) : Val :=
  if detectListMapKey [observed, lastApplied, desired] ≠ "" then
    mergeListMapToObserved (detectListMapKey [observed, lastApplied, desired])
      observed lastApplied desired
  else
    .list desired
termination_by 4 * Val.lsize desired + 3
decreasing_by omega

/-- Embeds `mergeListMapToObserved`: convert the three lists to maps
keyed by the stringified merge-key field, merge those maps, then
reconstitute an ordered list: first the observed items still present in
the merged map, in observed order, then the not-yet-added desired items,
in desired order. -/
def mergeListMapToObserved (mergeKey : String) (observed lastApplied desired : List Val) : Val :=
  let observedMap := makeMapFromList mergeKey observed
  let lastAppliedMap := makeMapFromList mergeKey lastApplied
  let desiredMap := makeMapFromList mergeKey desired
  let mergedMap := mergeMapToObserved observedMap lastAppliedMap desiredMap
  let firstPass := reconstructLoop1 mergeKey mergedMap [] [] observed
  .list (reconstructLoop2 mergeKey mergedMap firstPass.1 firstPass.2 desired)
termination_by 4 * Val.lsize desired + 2
decreasing_by
  have haux : ∀ (k : String) (xs : List Val) (acc : List (String × Val)),
      Val.msize (makeMapFromListAux k acc xs) ≤ Val.msize acc + Val.lsize xs := by
    intro k xs
    induction xs with
    | nil => intro acc; simp [makeMapFromListAux, Val.lsize]
    | cons x t ih =>
      intro acc
      have hput : ∀ (m : List (String × Val)) (key : String) (v : Val),
          Val.msize (putEntry m key v) ≤ Val.msize m + 1 + v.vsize := by
        intro m key v
        induction m with
        | nil => simp [putEntry, Val.msize]
        | cons e t2 ih2 =>
          obtain ⟨k2, w⟩ := e
          by_cases hk : k2 = key <;> simp [putEntry, hk, Val.msize] <;> omega
      calc Val.msize (makeMapFromListAux k (putEntry acc (stringMergeKey (getDefault (x.asMapEntries?.getD []) k)) x) t)
          ≤ Val.msize (putEntry acc (stringMergeKey (getDefault (x.asMapEntries?.getD []) k)) x) + Val.lsize t := ih _
        _ ≤ Val.msize acc + 1 + x.vsize + Val.lsize t := by
            have := hput acc (stringMergeKey (getDefault (x.asMapEntries?.getD []) k)) x
            omega
        _ = Val.msize acc + Val.lsize (x :: t) := by simp [Val.lsize]; omega
  have := haux mergeKey desired []
  simp [makeMapFromList, Val.msize] at this ⊢
  omega
end

/-- Embeds `Merge` (apply package): the top-level three-way merge.  The
source deep-copies `observed` (identity in this pure model) and calls
`mergeToObserved` on the three maps; since that never errors (the
`type mismatch` guards are dead code), the error wrap is dead too and
the merged document is always produced. -/
def Merge (observed lastApplied desired : List (String × Val)) : Val :=
  mergeToObserved (.map observed) (.map lastApplied) (.map desired)

/-- Models `unstructured.NestedFieldNoCopy` from
`k8s.io/apimachinery/pkg/apis/meta/v1/unstructured` (an external
dependency of the repository, embedded from its standard semantics): walk
the path, returning not-found (`ok none`) when a step hits nil or a
missing key, an error when a step hits a non-map, and the value
(`ok (some v)`) otherwise. -/
def nestedField : Val → List String → Except String (Option Val)
  | val, [] => .ok (some val)
  | val, field :: rest =>
    match val with
    | .null => .ok none
    | .map m =>
      match getEntry m field with
      | some v => nestedField v rest
      | none => .ok none
    | _ => .error ("value at " ++ field ++ " is not a map")

/-- Models `unstructured.SetNestedField` (apimachinery): walk the parent
path, descending into existing map nodes, creating empty map nodes for
missing keys, and failing on a non-map intermediate; then set the final
field.  The deep copy Go makes of the value is the identity here. -/
def setNestedField (m : List (String × Val)) (value : Val) : List String → Except String (List (String × Val))
  | [] => .ok m
  | [last] => .ok (putEntry m last value)
  | field :: rest =>
    match getEntry m field with
    | some (.map sub) => do
        let sub2 ← setNestedField sub value rest
        .ok (putEntry m field (.map sub2))
    | some _ => .error ("value cannot be set because " ++ field ++ " is not a map")
    | none => do
        let sub2 ← setNestedField [] value rest
        .ok (putEntry m field (.map sub2))

/-- Models `unstructured.RemoveNestedField` (apimachinery): walk the
parent path through map nodes, returning unchanged (no-op) as soon as a
step is missing or not a map, and delete the final field.  Parents are
never removed, even when the deletion leaves them empty. -/
def removeNestedField (m : List (String × Val)) : List String → List (String × Val)
  | [] => m
  | [last] => delEntry m last
  | field :: rest =>
    match getEntry m field with
    | some (.map sub) => putEntry m field (.map (removeNestedField sub rest))
    | _ => m

/-- Embeds `overrideField` (pkg/k8s metadata overlay): if `src` has the
field (found, including an explicit null), set the same value in `dest`;
if not, remove the field from `dest`. -/
def overrideField (dest src : List (String × Val)) (fieldPath : List String) : Except String (List (String × Val)) := do
  let srcVal ← nestedField (.map src) fieldPath
  match srcVal with
  | some v => setNestedField dest v fieldPath
  | none => .ok (removeNestedField dest fieldPath)

/-- Embeds `objectMetaSystemFields`, in source order. -/
def objectMetaSystemFields : List String :=
  ["selfLink", "uid", "resourceVersion", "generation",
   "creationTimestamp", "deletionTimestamp", "managedFields"]

/-- The loop of `overrideObjectMetaSystemFields` over a field list,
stopping at the first error. -/
def overrideFieldsLoop (src : List (String × Val)) : List (String × Val) → List String → Except String (List (String × Val))
  | dest, [] => .ok dest
  | dest, fieldName :: rest => do
      let dest2 ← overrideField dest src ["metadata", fieldName]
      overrideFieldsLoop src dest2 rest

/-- Embeds `overrideObjectMetaSystemFields` (pkg/k8s metadata overlay):
override each of the seven read-only system fields of `metadata` in
`dest` to match `src`. -/
def overrideObjectMetaSystemFields (dest src : List (String × Val)) : Except String (List (String × Val)) :=
  overrideFieldsLoop src dest objectMetaSystemFields

/-- Structural presence of a nested field: true iff every step of the
path goes through a map node that has the key. -/
def hasNested : Val → List String → Bool
  | _, [] => true
  | val, field :: rest =>
    match val with
    | .map m =>
      match getEntry m field with
      | some v => hasNested v rest
      | none => false
    | _ => false

mutual
/-- Well-formedness of a document as produced by Go: every map (at any
depth) has pairwise-distinct keys.  Go's `map[string]interface{}` cannot
hold duplicate keys, so every document the embedded code receives from
Go satisfies this. -/
def Val.wf : Val → Bool
  | .map es => Val.wfEntries es
  | .list xs => Val.wfElems xs
  | _ => true

/-- Key-uniqueness plus recursive well-formedness of an entry list. -/
def Val.wfEntries : List (String × Val) → Bool
  | [] => true
  | (k, v) :: rest =>
      !(rest.map Prod.fst).contains k && Val.wf v && Val.wfEntries rest

/-- Recursive well-formedness of the elements of a list value. -/
def Val.wfElems : List Val → Bool
  | [] => true
  | x :: rest => Val.wf x && Val.wfElems rest
end

mutual
/-- A document with no list-of-maps candidates: every list value
occurring anywhere in it is empty or has at least one non-map element,
so `detectListMapKey` can never select a merge key for it.  This is the
hypothesis under which merge idempotence is provable; see the duplicate
merge-key counterexample for why some restriction is needed. -/
def Val.scalarListsOnly : Val → Bool
  | .map es => Val.scalarListsOnlyEntries es
  | .list xs => (xs.isEmpty || xs.any fun x => !x.isMap) && Val.scalarListsOnlyElems xs
  | _ => true

/-- `Val.scalarListsOnly` over an entry list. -/
def Val.scalarListsOnlyEntries : List (String × Val) → Bool
  | [] => true
  | (_, v) :: rest => Val.scalarListsOnly v && Val.scalarListsOnlyEntries rest

/-- `Val.scalarListsOnly` over list elements. -/
def Val.scalarListsOnlyElems : List Val → Bool
  | [] => true
  | x :: rest => Val.scalarListsOnly x && Val.scalarListsOnlyElems rest
end

/-- What the slice stripper does to a single element, as the claim
enumerates it: nulls are retained as null, scalars (including empty
strings) are kept unchanged, and map elements are replaced by their
recursively stripped form. -/
def strippedElem (a b : Val) : Prop :=
  (a = .null → b = .null) ∧
  (∀ s, a = .str s → b = .str s) ∧
  (∀ n, a = .int n → b = .int n) ∧
  (∀ n, a = .flt n → b = .flt n) ∧
  (∀ x, a = .bool x → b = .bool x) ∧
  (∀ m, a = .map m → ∃ m2, DeleteNullInUnstructuredMap m = .ok m2 ∧ b = .map m2)

/-! ### Theorems -/

/-- C1: the specification demands that whenever the observed value at a
field path is a map (resp. list) and the lastApplied or desired value at
the same path is present, non-null and not a map (resp. list), `Merge`
aborts with a `TypeMismatch` error and no merged document.  The code
cannot do this: its guards read `!ok && lastAppliedVal != nil`, testing
the value produced by the failed type assertion — which Go always leaves
nil — instead of the original interface, so both guards are identically
false and no mismatch is ever reported.  Concretely, with observed
`{"a": {}}` (a map at "a") and desired `{"a": "str"}` (a non-null
non-map at "a"), `Merge` returns the merged document `{"a": {}}` and no
error, where the claim requires a `TypeMismatch` abort. -/
theorem C1_typeMismatchGuardsDead :
    (∀ x : Val, typeMismatchGuardMap x = false) ∧
    (∀ x : Val, typeMismatchGuardList x = false) ∧
    Merge [("a", Val.map [])] [] [("a", Val.str "str")]
      = Val.map [("a", Val.map [])] := by
  refine ⟨fun x => by cases x <;> rfl, fun x => by cases x <;> rfl, ?_⟩
  simp [Merge, mergeToObserved, mergeMapToObserved, mergeUpsert,
    asMapAssert, asListAssert, getDefault, getEntry, putEntry, hasKey]

/-- C2: the specification states that the stripper never drops boolean
`false` (and never drops numeric zero), dropping only null and
empty-string scalars, so that the documented example keeps `"d": false`.
In the code, `IsZero(reflect.ValueOf(false))` falls into the reflect
`default` branch and compares equal to the zero value `false`, so a
`false`-valued key is dropped — contradicting the function's own
documentation ("removes ... value(s) that represent a nil ... also
removes ... when value of string type is empty") and the specification.
On the claim's example the code returns `{"c":0, "e":{}, "f":[]}`: the
key "d" is missing from the result. -/
theorem C2_stripDropsFalse :
    DeleteNullInUnstructuredMap
      [("a", Val.str ""), ("b", Val.null), ("c", Val.int 0), ("d", Val.bool false),
       ("e", Val.map []), ("f", Val.list [])]
      = .ok [("c", Val.int 0), ("e", Val.map []), ("f", Val.list [])] ∧
    IsZero (Val.bool false) = true := by
  refine ⟨?_, rfl⟩
  simp [DeleteNullInUnstructuredMap, DeleteNullInUnstructuredSlice, Val.isNull,
    IsZero, Bind.bind, Except.bind]

/-- An error from stripping the tail of an entry list propagates: the
head entry either skips, errors itself, or binds the tail's error. -/
theorem stripMap_cons_error (key : String) (val : Val) (rest : List (String × Val))
    (h : ∃ e, DeleteNullInUnstructuredMap rest = .error e) :
    ∃ e2, DeleteNullInUnstructuredMap ((key, val) :: rest) = .error e2 := by
  obtain ⟨e0, he0⟩ := h
  cases val with
  | null => exact ⟨e0, by simp [DeleteNullInUnstructuredMap, Val.isNull, he0]⟩
  | str s =>
    by_cases hs : s = ""
    · exact ⟨e0, by simp [DeleteNullInUnstructuredMap, Val.isNull, IsZero, hs, he0]⟩
    · exact ⟨e0, by simp [DeleteNullInUnstructuredMap, Val.isNull, IsZero, hs, he0,
        Bind.bind, Except.bind]⟩
  | int n =>
    exact ⟨e0, by simp [DeleteNullInUnstructuredMap, Val.isNull, IsZero, he0,
      Bind.bind, Except.bind]⟩
  | flt n =>
    exact ⟨e0, by simp [DeleteNullInUnstructuredMap, Val.isNull, IsZero, he0,
      Bind.bind, Except.bind]⟩
  | bool b =>
    cases b
    · exact ⟨e0, by simp [DeleteNullInUnstructuredMap, Val.isNull, IsZero, he0]⟩
    · exact ⟨e0, by simp [DeleteNullInUnstructuredMap, Val.isNull, IsZero, he0,
        Bind.bind, Except.bind]⟩
  | other z =>
    cases z
    · exact ⟨"unsupported type: key " ++ key,
        by simp [DeleteNullInUnstructuredMap, Val.isNull, IsZero]⟩
    · exact ⟨e0, by simp [DeleteNullInUnstructuredMap, Val.isNull, IsZero, he0]⟩
  | list xs =>
    cases hsub : DeleteNullInUnstructuredSlice xs with
    | error e1 =>
      exact ⟨e1, by simp [DeleteNullInUnstructuredMap, Val.isNull, IsZero, hsub,
        Bind.bind, Except.bind]⟩
    | ok s =>
      exact ⟨e0, by simp [DeleteNullInUnstructuredMap, Val.isNull, IsZero, hsub, he0,
        Bind.bind, Except.bind]⟩
  | map es =>
    cases es with
    | nil =>
      exact ⟨e0, by simp [DeleteNullInUnstructuredMap, Val.isNull, IsZero, he0,
        Bind.bind, Except.bind]⟩
    | cons e2 rest2 =>
      cases hsub : DeleteNullInUnstructuredMap (e2 :: rest2) with
      | error e1 =>
        exact ⟨e1, by simp [DeleteNullInUnstructuredMap, Val.isNull, IsZero, hsub,
          Bind.bind, Except.bind]⟩
      | ok s =>
        exact ⟨e0, by simp [DeleteNullInUnstructuredMap, Val.isNull, IsZero, hsub, he0,
          Bind.bind, Except.bind]⟩

/-- C10: the stripper's zero-value check runs before its supported-type
check: a key whose value has an unsupported dynamic type but is the zero
value of that type (`other true`, e.g. a plain int 0 or a nil `[]string`)
is silently skipped, exactly as if it were absent, while a non-zero value
of an unsupported type (`other false`, e.g. int 7 or `[]string{}`) makes
the whole call fail, wherever in the map it occurs. -/
theorem C10_zeroCheckBeforeTypeCheck :
    (∀ (pre : List (String × Val)) (k : String) (post : List (String × Val)),
      DeleteNullInUnstructuredMap (pre ++ (k, Val.other true) :: post)
        = DeleteNullInUnstructuredMap (pre ++ post)) ∧
    (∀ (pre : List (String × Val)) (k : String) (post : List (String × Val)),
      ∃ e, DeleteNullInUnstructuredMap (pre ++ (k, Val.other false) :: post)
        = .error e) := by
  constructor
  · intro pre k post
    induction pre with
    | nil =>
      simp [DeleteNullInUnstructuredMap, Val.isNull, IsZero]
    | cons e rest ih =>
      obtain ⟨key, val⟩ := e
      cases val <;>
        simp [DeleteNullInUnstructuredMap, Val.isNull, IsZero, Bind.bind,
          Except.bind, ih]
  · intro pre k post
    induction pre with
    | nil =>
      exact ⟨"unsupported type: key " ++ k,
        by simp [DeleteNullInUnstructuredMap, Val.isNull, IsZero]⟩
    | cons e rest ih =>
      obtain ⟨key, val⟩ := e
      exact stripMap_cons_error key val _ ih

/-- C9: whenever the slice stripper returns a list, that list has exactly
the length of its input, and element-wise: a null input element is
retained as null at its index, scalar elements (including empty strings)
are kept unchanged at their index, and a map element is replaced in place
by its recursively stripped form. -/
theorem C9_sliceStripShape (xs r : List Val)
    (h : DeleteNullInUnstructuredSlice xs = .ok r) :
    r.length = xs.length ∧
    ∀ i, i < xs.length → strippedElem (xs.getD i .null) (r.getD i .null) := by
  induction xs generalizing r with
  | nil =>
    simp [DeleteNullInUnstructuredSlice] at h
    subst h
    simp
  | cons v rest ih =>
    cases v with
    | null =>
      simp only [DeleteNullInUnstructuredSlice, Val.isNull, Bind.bind, Except.bind] at h
      cases hr : DeleteNullInUnstructuredSlice rest with
      | error e => rw [hr] at h; simp at h
      | ok r2 =>
        rw [hr] at h
        simp at h
        subst h
        obtain ⟨hlen, hidx⟩ := ih r2 hr
        refine ⟨by simp [hlen], ?_⟩
        intro i hi
        cases i with
        | zero => simp [strippedElem]
        | succ j =>
          simp only [List.getD_cons_succ]
          exact hidx j (by simpa using hi)
    | str s =>
      simp only [DeleteNullInUnstructuredSlice, Val.isNull, Bind.bind, Except.bind] at h
      cases hr : DeleteNullInUnstructuredSlice rest with
      | error e => rw [hr] at h; simp at h
      | ok r2 =>
        rw [hr] at h
        simp at h
        subst h
        obtain ⟨hlen, hidx⟩ := ih r2 hr
        refine ⟨by simp [hlen], ?_⟩
        intro i hi
        cases i with
        | zero => simp [strippedElem]
        | succ j =>
          simp only [List.getD_cons_succ]
          exact hidx j (by simpa using hi)
    | int n =>
      simp only [DeleteNullInUnstructuredSlice, Val.isNull, Bind.bind, Except.bind] at h
      cases hr : DeleteNullInUnstructuredSlice rest with
      | error e => rw [hr] at h; simp at h
      | ok r2 =>
        rw [hr] at h
        simp at h
        subst h
        obtain ⟨hlen, hidx⟩ := ih r2 hr
        refine ⟨by simp [hlen], ?_⟩
        intro i hi
        cases i with
        | zero => simp [strippedElem]
        | succ j =>
          simp only [List.getD_cons_succ]
          exact hidx j (by simpa using hi)
    | flt n =>
      simp only [DeleteNullInUnstructuredSlice, Val.isNull, Bind.bind, Except.bind] at h
      cases hr : DeleteNullInUnstructuredSlice rest with
      | error e => rw [hr] at h; simp at h
      | ok r2 =>
        rw [hr] at h
        simp at h
        subst h
        obtain ⟨hlen, hidx⟩ := ih r2 hr
        refine ⟨by simp [hlen], ?_⟩
        intro i hi
        cases i with
        | zero => simp [strippedElem]
        | succ j =>
          simp only [List.getD_cons_succ]
          exact hidx j (by simpa using hi)
    | bool b =>
      simp only [DeleteNullInUnstructuredSlice, Val.isNull, Bind.bind, Except.bind] at h
      cases hr : DeleteNullInUnstructuredSlice rest with
      | error e => rw [hr] at h; simp at h
      | ok r2 =>
        rw [hr] at h
        simp at h
        subst h
        obtain ⟨hlen, hidx⟩ := ih r2 hr
        refine ⟨by simp [hlen], ?_⟩
        intro i hi
        cases i with
        | zero => simp [strippedElem]
        | succ j =>
          simp only [List.getD_cons_succ]
          exact hidx j (by simpa using hi)
    | other z =>
      simp [DeleteNullInUnstructuredSlice, Val.isNull] at h
    | list xs2 =>
      simp only [DeleteNullInUnstructuredSlice, Val.isNull, Bind.bind, Except.bind] at h
      cases hsub : DeleteNullInUnstructuredSlice xs2 with
      | error e => rw [hsub] at h; simp at h
      | ok sub =>
        rw [hsub] at h
        cases hr : DeleteNullInUnstructuredSlice rest with
        | error e => rw [hr] at h; simp at h
        | ok r2 =>
          rw [hr] at h
          simp at h
          subst h
          obtain ⟨hlen, hidx⟩ := ih r2 hr
          refine ⟨by simp [hlen], ?_⟩
          intro i hi
          cases i with
          | zero => simp [strippedElem]
          | succ j =>
            simp only [List.getD_cons_succ]
            exact hidx j (by simpa using hi)
    | map es =>
      simp only [DeleteNullInUnstructuredSlice, Val.isNull, Bind.bind, Except.bind] at h
      cases hsub : DeleteNullInUnstructuredMap es with
      | error e => rw [hsub] at h; simp at h
      | ok sub =>
        rw [hsub] at h
        cases hr : DeleteNullInUnstructuredSlice rest with
        | error e => rw [hr] at h; simp at h
        | ok r2 =>
          rw [hr] at h
          simp at h
          subst h
          obtain ⟨hlen, hidx⟩ := ih r2 hr
          refine ⟨by simp [hlen], ?_⟩
          intro i hi
          cases i with
          | zero =>
            refine ⟨by simp, by simp, by simp, by simp, by simp, ?_⟩
            intro m hm
            simp at hm
            subst hm
            exact ⟨sub, hsub, rfl⟩
          | succ j =>
            simp only [List.getD_cons_succ]
            exact hidx j (by simpa using hi)

/-- Witness for C9 at a concrete input containing a null, an empty
string, a scalar and a map element. -/
theorem C9_sliceStripShape_witness :
    DeleteNullInUnstructuredSlice
        [Val.null, Val.str "", Val.int 3, Val.map [("a", Val.null)]]
      = .ok [Val.null, Val.str "", Val.int 3, Val.map []] ∧
    ([Val.null, Val.str "", Val.int 3, Val.map []] : List Val).length
      = ([Val.null, Val.str "", Val.int 3, Val.map [("a", Val.null)]] : List Val).length ∧
    ∀ i, i < ([Val.null, Val.str "", Val.int 3, Val.map [("a", Val.null)]] : List Val).length →
      strippedElem
        (([Val.null, Val.str "", Val.int 3, Val.map [("a", Val.null)]] : List Val).getD i .null)
        (([Val.null, Val.str "", Val.int 3, Val.map []] : List Val).getD i .null) := by
  have h : DeleteNullInUnstructuredSlice
      [Val.null, Val.str "", Val.int 3, Val.map [("a", Val.null)]]
      = .ok [Val.null, Val.str "", Val.int 3, Val.map []] := by
    simp [DeleteNullInUnstructuredSlice, DeleteNullInUnstructuredMap, Val.isNull,
      IsZero, Bind.bind, Except.bind]
  exact ⟨h, C9_sliceStripShape _ _ h⟩

/-- C5: for every list field at which the merge-key detector returns the
empty string, the merged value is desired's list verbatim, whatever
observed and lastApplied hold; concretely, observed finalizers
`["x","y"]` with desired finalizers `["y"]` merge to exactly `["y"]`. -/
theorem C5_scalarListReplace :
    (∀ observed lastApplied desired : List Val,
      detectListMapKey [observed, lastApplied, desired] = "" →
      mergeArrayToObserved observed lastApplied desired = .list desired) ∧
    Merge [("finalizers", Val.list [Val.str "x", Val.str "y"])] []
          [("finalizers", Val.list [Val.str "y"])]
      = Val.map [("finalizers", Val.list [Val.str "y"])] := by
  constructor
  · intro observed lastApplied desired h
    simp [mergeArrayToObserved, h]
  · simp [Merge, mergeToObserved, mergeMapToObserved, mergeUpsert,
      mergeArrayToObserved, asMapAssert, asListAssert, getDefault, getEntry,
      putEntry, hasKey, detectListMapKey, scanListsForCommonKeys,
      pruneCommonKeys, knownMergeKeys, memCommonKeys]

/-- Witness for C5: the finalizers lists, whose first observed element is
a string, so no merge key is detected. -/
theorem C5_scalarListReplace_witness :
    detectListMapKey [[Val.str "x", Val.str "y"], [], [Val.str "y"]] = "" ∧
    mergeArrayToObserved [Val.str "x", Val.str "y"] [] [Val.str "y"]
      = Val.list [Val.str "y"] := by
  have h : detectListMapKey [[Val.str "x", Val.str "y"], [], [Val.str "y"]] = "" := by
    rfl
  exact ⟨h, C5_scalarListReplace.1 _ _ _ h⟩

/-- Keys of an entry list, as scanned by `detectListMapKey`'s one-time
initialization, contain a key iff the map has it. -/
theorem keysContains_eq_hasKey (im : List (String × Val)) (key : String) :
    (im.map Prod.fst).contains key = hasKey im key := by
  induction im with
  | nil => rfl
  | cons e rest ih =>
    obtain ⟨k, v⟩ := e
    by_cases hk : k = key
    · simp [hasKey, getEntry, hk]
    · have hk2 : ¬key = k := fun h => hk h.symm
      have hbeq : (key == k) = false := by simp [hk2]
      simp only [List.map_cons, List.contains_cons, hasKey, getEntry]
      rw [if_neg hk, hbeq]
      simp only [Bool.false_or]
      exact ih

/-- Filtering a string list commutes with membership. -/
theorem containsFilter (ks : List String) (p : String → Bool) (key : String) :
    (ks.filter p).contains key = (ks.contains key && p key) := by
  induction ks with
  | nil => simp
  | cons k rest ih =>
    by_cases hk : key = k
    · subst hk
      by_cases hp : p key <;>
        simp [List.filter_cons, hp, ih, List.contains_cons]
    · by_cases hp : p k <;>
        simp [List.filter_cons, hp, ih, List.contains_cons, hk, Bool.and_or_distrib_right]

/-- A list containing a non-map item makes `detectListMapKey`'s scan
abort, whatever the current state. -/
theorem pruneCommonKeys_nonmap (items : List Val) (ck : Option (List String))
    (h : ∃ x ∈ items, x.isMap = false) :
    pruneCommonKeys ck items = none := by
  induction items generalizing ck with
  | nil => simp at h
  | cons x rest ih =>
    obtain ⟨y, hy, hymap⟩ := h
    cases x with
    | map im =>
      rcases List.mem_cons.mp hy with h1 | h1
      · subst h1; simp [Val.isMap] at hymap
      · cases ck <;> exact ih _ ⟨y, h1, hymap⟩
    | null => rfl
    | str s => rfl
    | int n => rfl
    | flt n => rfl
    | bool b => rfl
    | list xs => rfl
    | other z => rfl

/-- Scanning all-map items always succeeds, and the resulting common-key
set contains a key iff the incoming state admits it and every scanned
item has the key (an uninitialized state admits a key only once at least
one item has been scanned). -/
theorem pruneCommonKeys_allmaps (items : List Val) (ck : Option (List String))
    (h : ∀ x ∈ items, x.isMap = true) :
    ∃ ck2, pruneCommonKeys ck items = some ck2 ∧
      ck2.isNone = (ck.isNone && items.isEmpty) ∧
      ∀ key, memCommonKeys ck2 key =
        ((if ck.isNone then !items.isEmpty else memCommonKeys ck key) &&
         items.all fun e => hasKey (e.asMapEntries?.getD []) key) := by
  induction items generalizing ck with
  | nil =>
    refine ⟨ck, rfl, by simp, ?_⟩
    intro key
    cases ck <;> simp [memCommonKeys]
  | cons x rest ih =>
    have hx : x.isMap = true := h x (List.mem_cons_self x rest)
    cases x with
    | map im =>
      have hrest : ∀ y ∈ rest, y.isMap = true := fun y hy => h y (List.mem_cons_of_mem _ hy)
      cases ck with
      | none =>
        obtain ⟨ck2, hck2, hnone, hmem⟩ := ih (some (im.map Prod.fst)) hrest
        refine ⟨ck2, by simpa [pruneCommonKeys] using hck2, by simpa using hnone, ?_⟩
        intro key
        rw [hmem key]
        have h1 : memCommonKeys (some (im.map Prod.fst)) key = hasKey im key := by
          rw [show memCommonKeys (some (im.map Prod.fst)) key
              = (im.map Prod.fst).contains key from rfl, keysContains_eq_hasKey]
        rw [h1]
        simp [Val.asMapEntries?, Bool.and_assoc]
      | some ks =>
        obtain ⟨ck2, hck2, hnone, hmem⟩ := ih (some (ks.filter fun k => hasKey im k)) hrest
        refine ⟨ck2, by simpa [pruneCommonKeys] using hck2, by simpa using hnone, ?_⟩
        intro key
        rw [hmem key]
        have h1 : memCommonKeys (some (ks.filter fun k => hasKey im k)) key
            = (ks.contains key && hasKey im key) := by
          rw [show memCommonKeys (some (ks.filter fun k => hasKey im k)) key
              = (ks.filter fun k => hasKey im k).contains key from rfl, containsFilter]
        rw [h1]
        simp [memCommonKeys, Val.asMapEntries?, Bool.and_assoc, Bool.and_comm,
          Bool.and_left_comm]
    | null => simp [Val.isMap] at hx
    | str s => simp [Val.isMap] at hx
    | int n => simp [Val.isMap] at hx
    | flt n => simp [Val.isMap] at hx
    | bool b => simp [Val.isMap] at hx
    | list xs => simp [Val.isMap] at hx
    | other z => simp [Val.isMap] at hx

/-- A non-map element in any supplied list aborts the whole scan. -/
theorem scanLists_nonmap (ls : List (List Val)) (ck : Option (List String))
    (h : ∃ l ∈ ls, ∃ x ∈ l, x.isMap = false) :
    scanListsForCommonKeys ck ls = none := by
  induction ls generalizing ck with
  | nil => simp at h
  | cons l ls ih =>
    obtain ⟨l0, hl0, x, hx, hxm⟩ := h
    rcases List.mem_cons.mp hl0 with h1 | h1
    · have hp : pruneCommonKeys ck l = none := h1 ▸ pruneCommonKeys_nonmap l0 ck ⟨x, hx, hxm⟩
      rw [scanListsForCommonKeys, hp]
    · rw [scanListsForCommonKeys]
      cases hp : pruneCommonKeys ck l with
      | none => rfl
      | some ck1 => exact ih ck1 ⟨l0, h1, x, hx, hxm⟩

/-- Scanning lists of all-map items succeeds, and membership in the
final common-key set is exactly "some element was scanned and every
element has the key" (relative to the incoming state). -/
theorem scanLists_allmaps (ls : List (List Val)) (ck : Option (List String))
    (h : ∀ l ∈ ls, ∀ x ∈ l, x.isMap = true) :
    ∃ ck2, scanListsForCommonKeys ck ls = some ck2 ∧
      ck2.isNone = (ck.isNone && ls.flatten.isEmpty) ∧
      ∀ key, memCommonKeys ck2 key =
        ((if ck.isNone then !ls.flatten.isEmpty else memCommonKeys ck key) &&
         ls.flatten.all fun e => hasKey (e.asMapEntries?.getD []) key) := by
  induction ls generalizing ck with
  | nil =>
    refine ⟨ck, rfl, by simp, ?_⟩
    intro key
    cases ck <;> simp [memCommonKeys]
  | cons l ls ih =>
    have hl : ∀ x ∈ l, x.isMap = true := h l (List.mem_cons_self l ls)
    have hls : ∀ l2 ∈ ls, ∀ x ∈ l2, x.isMap = true :=
      fun l2 hl2 => h l2 (List.mem_cons_of_mem _ hl2)
    obtain ⟨ck1, hck1, hnone1, hmem1⟩ := pruneCommonKeys_allmaps l ck hl
    obtain ⟨ck2, hck2, hnone2, hmem2⟩ := ih ck1 hls
    refine ⟨ck2, ?_, ?_, ?_⟩
    · rw [scanListsForCommonKeys, hck1]
      exact hck2
    · rw [hnone2, hnone1]
      cases l <;> simp [Bool.and_assoc]
    · intro key
      rw [hmem2 key, hmem1 key, hnone1]
      cases ck with
      | none =>
        cases l with
        | nil => simp
        | cons a t => simp [List.all_append, Bool.and_assoc]
      | some ks =>
        simp [List.all_append, Bool.and_assoc]

/-- Pointwise-equal predicates find the same first element. -/
theorem findCongr {α : Type} (l : List α) (p q : α → Bool)
    (h : ∀ a ∈ l, p a = q a) : l.find? p = l.find? q := by
  induction l with
  | nil => rfl
  | cons a t ih =>
    have ha := h a (List.mem_cons_self a t)
    cases hpa : p a with
    | true =>
      rw [List.find?_cons_of_pos _ hpa, List.find?_cons_of_pos _ (ha ▸ hpa)]
    | false =>
      rw [List.find?_cons_of_neg _ (by simp [hpa]), List.find?_cons_of_neg _ (by simp [ha ▸ hpa])]
      exact ih fun a2 h2 => h a2 (List.mem_cons_of_mem _ h2)

/-- C6: `detectListMapKey` behaves exactly as specified: it returns the
empty string whenever any element of any supplied list is not a map, and
otherwise the first name in the fixed priority order
`uid, id, alias, name, key, component, containerPort, container-port,
port, ip` that is a field of every element of every supplied list — the
empty string when no candidate is common to all elements, in particular
when all supplied lists are empty. -/
theorem C6_detectListMapKey_spec (lists : List (List Val)) :
    detectListMapKey lists = detectListMapKeySpec lists := by
  by_cases hnm : ∃ x ∈ lists.flatten, x.isMap = false
  · have hscan : scanListsForCommonKeys none lists = none := by
      obtain ⟨x, hx, hxm⟩ := hnm
      obtain ⟨l, hl, hxl⟩ := List.mem_flatten.mp hx
      exact scanLists_nonmap lists none ⟨l, hl, x, hxl, hxm⟩
    have hany : (lists.flatten.any fun e => !e.isMap) = true := by
      obtain ⟨x, hx, hxm⟩ := hnm
      exact List.any_eq_true.mpr ⟨x, hx, by simp [hxm]⟩
    rw [detectListMapKey, hscan, detectListMapKeySpec]
    simp [hany]
  · have hall : ∀ x ∈ lists.flatten, x.isMap = true := by
      intro x hx
      rcases Bool.eq_false_or_eq_true x.isMap with h1 | h1
      · exact h1
      · exact absurd ⟨x, hx, h1⟩ hnm
    obtain ⟨ck2, hscan, hnone, hmem⟩ := scanLists_allmaps lists none
      (fun l hl x hx => hall x (List.mem_flatten.mpr ⟨l, hl, hx⟩))
    have hany : (lists.flatten.any fun e => !e.isMap) = false := by
      rw [List.any_eq_false]
      intro x hx
      simp [hall x hx]
    have hfind : (knownMergeKeys.find? fun key => memCommonKeys ck2 key)
        = knownMergeKeys.find? fun key =>
            !lists.flatten.isEmpty &&
              lists.flatten.all fun e => hasKey (e.asMapEntries?.getD []) key := by
      apply findCongr
      intro a _
      rw [hmem a]
      simp
    rw [detectListMapKey, hscan, detectListMapKeySpec]
    simp only [hany, Bool.false_eq_true, if_false, hfind]
    cases hfq : (knownMergeKeys.find? fun key =>
        !lists.flatten.isEmpty &&
          lists.flatten.all fun e => hasKey (e.asMapEntries?.getD []) key) <;>
      simp [hfq]

/-- Reading back through a Go map write. -/
theorem getEntry_putEntry (m : List (String × Val)) (k : String) (v : Val) (key : String) :
    getEntry (putEntry m k v) key = if k = key then some v else getEntry m key := by
  induction m with
  | nil => simp [putEntry, getEntry]
  | cons e rest ih =>
    obtain ⟨k2, w⟩ := e
    by_cases hk : k2 = k
    · subst hk
      by_cases hk2 : k2 = key <;> simp [putEntry, getEntry, hk2]
    · by_cases hk2 : k2 = key
      · subst hk2
        rw [putEntry, if_neg hk]
        simp [getEntry, show ¬k = k2 from fun h => hk h.symm]
      · rw [putEntry, if_neg hk]
        simp [getEntry, hk2, ih]

/-- Lookup after filtering by a key predicate. -/
theorem getEntry_filterKey (m : List (String × Val)) (q : String → Bool) (key : String) :
    getEntry (m.filter fun e => q e.1) key = if q key then getEntry m key else none := by
  induction m with
  | nil => simp [getEntry]
  | cons e rest ih =>
    obtain ⟨k, v⟩ := e
    by_cases hk : k = key
    · subst hk
      by_cases hq : q k <;> simp [List.filter_cons, hq, getEntry, ih]
    · by_cases hq : q k <;> simp [List.filter_cons, hq, getEntry, hk, ih]

/-- Presence after filtering by a key predicate. -/
theorem hasKey_filterKey (m : List (String × Val)) (q : String → Bool) (key : String) :
    hasKey (m.filter fun e => q e.1) key = (hasKey m key && q key) := by
  rw [hasKey, getEntry_filterKey]
  by_cases hq : q key <;> simp [hasKey, hq]

/-- The upsert loop's key set is the union of the observed and desired
key sets. -/
theorem mergeUpsert_hasKey (dm : List (String × Val)) (om lm : List (String × Val)) (key : String) :
    hasKey (mergeUpsert om lm dm) key = (hasKey om key || hasKey dm key) := by
  induction dm generalizing om with
  | nil => simp [mergeUpsert, hasKey, getEntry]
  | cons e rest ih =>
    obtain ⟨k, dv⟩ := e
    rw [mergeUpsert, ih]
    by_cases hk : k = key <;>
      simp [hasKey, getEntry_putEntry, getEntry, hk]

/-- The upsert loop leaves keys outside desired untouched. -/
theorem mergeUpsert_getEntry_notdesired (dm : List (String × Val)) (om lm : List (String × Val))
    (key : String) (h : hasKey dm key = false) :
    getEntry (mergeUpsert om lm dm) key = getEntry om key := by
  induction dm generalizing om with
  | nil => simp [mergeUpsert]
  | cons e rest ih =>
    obtain ⟨k, dv⟩ := e
    have hk : ¬k = key := by
      intro hc
      subst hc
      simp [hasKey, getEntry] at h
    have hrest : hasKey rest key = false := by
      simpa [hasKey, getEntry, hk] using h
    rw [mergeUpsert, ih _ hrest, getEntry_putEntry, if_neg hk]

/-- C3: deletion pass of the three-way merge: any key present in
lastApplied and absent from desired is absent from the merged map; the
same happens element-wise for lists of maps through the detected merge
key, as in the containers example, where the element keyed "b" (present
in lastApplied, absent from desired) is removed and the merged list is
exactly the desired container with its image updated. -/
theorem C3_deletionPass :
    (∀ om lm dm : List (String × Val), ∀ key,
      hasKey lm key = true → hasKey dm key = false →
      hasKey (mergeMapToObserved om lm dm) key = false) ∧
    Merge
      [("containers", Val.list
        [Val.map [("name", Val.str "a"), ("image", Val.str "v1")],
         Val.map [("name", Val.str "b"), ("image", Val.str "v1")]])]
      [("containers", Val.list
        [Val.map [("name", Val.str "a"), ("image", Val.str "v1")],
         Val.map [("name", Val.str "b"), ("image", Val.str "v1")]])]
      [("containers", Val.list
        [Val.map [("name", Val.str "a"), ("image", Val.str "v2")]])]
      = Val.map [("containers", Val.list
          [Val.map [("name", Val.str "a"), ("image", Val.str "v2")]])] := by
  constructor
  · intro om lm dm key h1 h2
    rw [mergeMapToObserved, mergeUpsert_hasKey,
      hasKey_filterKey om (fun k => !(hasKey lm k && !hasKey dm k)) key]
    simp [h1, h2]
  · simp [Merge, mergeToObserved, mergeMapToObserved, mergeUpsert,
      mergeArrayToObserved, mergeListMapToObserved, asMapAssert, asListAssert,
      getDefault, getEntry, putEntry, hasKey, detectListMapKey,
      scanListsForCommonKeys, pruneCommonKeys, knownMergeKeys, memCommonKeys,
      makeMapFromList, makeMapFromListAux, stringMergeKey, Val.asMapEntries?,
      reconstructLoop1, reconstructLoop2]

/-- Witness for C3's universally quantified part: key "x" is in
lastApplied but not desired, so it is deleted from the merged map. -/
theorem C3_deletionPass_witness :
    hasKey [("x", Val.null)] "x" = true ∧
    hasKey ([] : List (String × Val)) "x" = false ∧
    hasKey (mergeMapToObserved [("y", Val.int 1), ("x", Val.int 2)] [("x", Val.null)] []) "x"
      = false := by
  exact ⟨rfl, rfl, C3_deletionPass.1 _ _ _ "x" rfl rfl⟩

/-- C4: frame guarantee: a key present only in observed (absent from
both lastApplied and desired) keeps its observed value in the merged
map; in the concrete scenario, replicas stays 3 while labels gains the
new pair. -/
theorem C4_frameGuarantee :
    (∀ om lm dm : List (String × Val), ∀ key,
      hasKey om key = true → hasKey lm key = false → hasKey dm key = false →
      getEntry (mergeMapToObserved om lm dm) key = getEntry om key) ∧
    Merge
      [("spec", Val.map [("replicas", Val.int 3),
                         ("labels", Val.map [("a", Val.str "1")])])]
      []
      [("spec", Val.map [("labels", Val.map [("a", Val.str "1"), ("b", Val.str "2")])])]
      = Val.map [("spec", Val.map [("replicas", Val.int 3),
          ("labels", Val.map [("a", Val.str "1"), ("b", Val.str "2")])])] := by
  constructor
  · intro om lm dm key h1 h2 h3
    rw [mergeMapToObserved, mergeUpsert_getEntry_notdesired _ _ _ _ h3,
      getEntry_filterKey om (fun k => !(hasKey lm k && !hasKey dm k)) key]
    simp [h2]
  · simp [Merge, mergeToObserved, mergeMapToObserved, mergeUpsert,
      asMapAssert, asListAssert, getDefault, getEntry, putEntry, hasKey]

/-- Witness for C4's universally quantified part: replicas is only in
observed and keeps its value through the merge. -/
theorem C4_frameGuarantee_witness :
    hasKey [("replicas", Val.int 3)] "replicas" = true ∧
    hasKey ([] : List (String × Val)) "replicas" = false ∧
    getEntry (mergeMapToObserved [("replicas", Val.int 3)] [] [("labels", Val.null)]) "replicas"
      = getEntry [("replicas", Val.int 3)] "replicas" := by
  refine ⟨rfl, rfl, C4_frameGuarantee.1 _ _ _ "replicas" rfl rfl rfl⟩

/-- A successful two-step `SetNestedField` makes the value readable back
at the same path. -/
theorem setNestedField_get_same (dest d2 : List (String × Val)) (v : Val) (a b : String)
    (h : setNestedField dest v [a, b] = .ok d2) :
    nestedField (.map d2) [a, b] = .ok (some v) := by
  simp only [setNestedField] at h
  cases hget : getEntry dest a with
  | none =>
    rw [hget] at h
    simp [setNestedField, Bind.bind, Except.bind] at h
    subst h
    simp [nestedField, getEntry_putEntry]
  | some w =>
    rw [hget] at h
    cases w with
    | map sub =>
      simp [setNestedField, Bind.bind, Except.bind] at h
      subst h
      simp [nestedField, getEntry_putEntry]
    | null => simp at h
    | str s => simp at h
    | int n => simp at h
    | flt n => simp at h
    | bool x => simp at h
    | list xs => simp at h
    | other z => simp at h

/-- A two-step `RemoveNestedField` leaves the target path structurally
absent (whether the parent was missing, a non-map, or a map that has
just lost the key). -/
theorem removeNestedField_not_has (dest : List (String × Val)) (a b : String) :
    hasNested (.map (removeNestedField dest [a, b])) [a, b] = false := by
  simp only [removeNestedField]
  cases hget : getEntry dest a with
  | none => simp [hasNested, hget]
  | some w =>
    cases w with
    | map sub =>
      have hdel : getEntry (delEntry sub b) b = none := by
        rw [delEntry,
          getEntry_filterKey sub (fun k => decide ¬(k = b)) b]
        simp
      simp [hasNested, getEntry_putEntry, hdel, removeNestedField]
    | null => simp [hasNested, hget]
    | str s => simp [hasNested, hget]
    | int n => simp [hasNested, hget]
    | flt n => simp [hasNested, hget]
    | bool x => simp [hasNested, hget]
    | list xs => simp [hasNested, hget]
    | other z => simp [hasNested, hget]

/-- Setting a sibling leaf under the same parent disturbs neither the
readable value nor the structural presence of the path `[a, b]`. -/
theorem setNestedField_frame (dest d2 : List (String × Val)) (v : Val) (a b b2 : String)
    (hbb : b2 ≠ b) (h : setNestedField dest v [a, b2] = .ok d2) :
    nestedField (.map d2) [a, b] = nestedField (.map dest) [a, b] ∧
    hasNested (.map d2) [a, b] = hasNested (.map dest) [a, b] := by
  simp only [setNestedField] at h
  cases hget : getEntry dest a with
  | none =>
    rw [hget] at h
    simp [setNestedField, Bind.bind, Except.bind] at h
    subst h
    constructor
    · simp [nestedField, getEntry_putEntry, hget, getEntry,
        show ¬b2 = b from hbb]
    · simp [hasNested, getEntry_putEntry, hget, getEntry,
        show ¬b2 = b from hbb]
  | some w =>
    rw [hget] at h
    cases w with
    | map sub =>
      simp [setNestedField, Bind.bind, Except.bind] at h
      subst h
      have hg : getEntry (putEntry sub b2 v) b = getEntry sub b := by
        rw [getEntry_putEntry, if_neg hbb]
      constructor
      · simp [nestedField, getEntry_putEntry, hget, hg]
      · simp [hasNested, getEntry_putEntry, hget, hg]
    | null => simp at h
    | str s => simp at h
    | int n => simp at h
    | flt n => simp at h
    | bool x => simp at h
    | list xs => simp at h
    | other z => simp at h

/-- Removing a sibling leaf under the same parent likewise disturbs
nothing at the path `[a, b]`. -/
theorem removeNestedField_frame (dest : List (String × Val)) (a b b2 : String)
    (hbb : b2 ≠ b) :
    nestedField (.map (removeNestedField dest [a, b2])) [a, b]
      = nestedField (.map dest) [a, b] ∧
    hasNested (.map (removeNestedField dest [a, b2])) [a, b]
      = hasNested (.map dest) [a, b] := by
  simp only [removeNestedField]
  cases hget : getEntry dest a with
  | none => simp
  | some w =>
    cases w with
    | map sub =>
      have hg : getEntry (delEntry sub b2) b = getEntry sub b := by
        rw [delEntry, getEntry_filterKey sub (fun k => decide ¬(k = b2)) b]
        simp [show ¬b = b2 from fun hc => hbb hc.symm]
      constructor
      · simp [nestedField, getEntry_putEntry, hget, hg, removeNestedField]
      · simp [hasNested, getEntry_putEntry, hget, hg, removeNestedField]
    | null => simp
    | str s => simp
    | int n => simp
    | flt n => simp
    | bool x => simp
    | list xs => simp
    | other z => simp

/-- Running the override loop over fields all different from `f` changes
nothing observable at `["metadata", f]`. -/
theorem overrideFieldsLoop_frame (fs : List String) (src : List (String × Val)) :
    ∀ dest r, overrideFieldsLoop src dest fs = .ok r →
    ∀ f, (∀ g ∈ fs, g ≠ f) →
    nestedField (.map r) ["metadata", f] = nestedField (.map dest) ["metadata", f] ∧
    hasNested (.map r) ["metadata", f] = hasNested (.map dest) ["metadata", f] := by
  induction fs with
  | nil =>
    intro dest r h f _
    simp [overrideFieldsLoop] at h
    subst h
    exact ⟨rfl, rfl⟩
  | cons g rest ih =>
    intro dest r h f hne
    have hg : g ≠ f := hne g (List.mem_cons_self g rest)
    have hrest : ∀ g2 ∈ rest, g2 ≠ f := fun g2 h2 => hne g2 (List.mem_cons_of_mem _ h2)
    rw [overrideFieldsLoop] at h
    cases hov : overrideField dest src ["metadata", g] with
    | error e => rw [hov] at h; simp [Bind.bind, Except.bind] at h
    | ok d1 =>
      rw [hov] at h
      simp only [Bind.bind, Except.bind] at h
      obtain ⟨h1f, h1h⟩ := ih d1 r h f hrest
      rw [overrideField] at hov
      cases hsv : nestedField (.map src) ["metadata", g] with
      | error e => rw [hsv] at hov; simp [Bind.bind, Except.bind] at hov
      | ok srcVal =>
        rw [hsv] at hov
        simp only [Bind.bind, Except.bind] at hov
        cases srcVal with
        | some v =>
          simp only at hov
          obtain ⟨h2f, h2h⟩ := setNestedField_frame dest d1 v "metadata" f g hg hov
          exact ⟨h1f.trans h2f, h1h.trans h2h⟩
        | none =>
          simp only at hov
          obtain ⟨rfl⟩ : d1 = removeNestedField dest ["metadata", g] := by
            simpa using hov.symm
          obtain ⟨h2f, h2h⟩ := removeNestedField_frame dest "metadata" f g hg
          exact ⟨h1f.trans h2f, h1h.trans h2h⟩

/-- The override loop, on a duplicate-free field list, gives every
listed field its src-determined final state: the src value readable at
the path when src has the field, structural absence when it does not. -/
theorem overrideFieldsLoop_spec (fs : List String) (hnd : fs.Nodup) :
    ∀ dest src r, overrideFieldsLoop src dest fs = .ok r →
    ∀ f ∈ fs,
      (∀ v, nestedField (.map src) ["metadata", f] = .ok (some v) →
        nestedField (.map r) ["metadata", f] = .ok (some v)) ∧
      (nestedField (.map src) ["metadata", f] = .ok none →
        hasNested (.map r) ["metadata", f] = false) := by
  induction fs with
  | nil =>
    intro dest src r _ f hf
    simp at hf
  | cons g rest ih =>
    intro dest src r h f hf
    have hpair := List.pairwise_cons.mp hnd
    rw [overrideFieldsLoop] at h
    cases hov : overrideField dest src ["metadata", g] with
    | error e => rw [hov] at h; simp [Bind.bind, Except.bind] at h
    | ok d1 =>
      rw [hov] at h
      simp only [Bind.bind, Except.bind] at h
      rcases List.mem_cons.mp hf with rfl | hfr
      · -- f is the head: establish at d1, then frame through rest
        have hframe := overrideFieldsLoop_frame rest src d1 r h f
          fun g2 h2 => (hpair.1 g2 h2).symm
        rw [overrideField] at hov
        cases hsv : nestedField (.map src) ["metadata", f] with
        | error e => rw [hsv] at hov; simp [Bind.bind, Except.bind] at hov
        | ok srcVal =>
          rw [hsv] at hov
          simp only [Bind.bind, Except.bind] at hov
          cases srcVal with
          | some v =>
            simp only at hov
            constructor
            · intro v2 hv2
              obtain rfl : v = v2 := by simpa using hv2
              exact hframe.1.trans (setNestedField_get_same dest d1 v "metadata" f hov)
            · intro hnone
              simp at hnone
          | none =>
            simp only at hov
            obtain ⟨rfl⟩ : d1 = removeNestedField dest ["metadata", f] := by
              simpa using hov.symm
            constructor
            · intro v2 hv2
              simp at hv2
            · intro _
              exact hframe.2.trans (removeNestedField_not_has dest "metadata" f)
      · exact ih hpair.2 d1 src r h f hfr

/-- C7 (amended): after a successful `OverrideSystemFields(dest, src)`,
each of the seven system fields under metadata holds exactly src's value
when src structurally has it (intermediate map nodes created as needed),
and is itself structurally absent from dest when src does not — but
intermediate parent maps emptied by the removal are retained, not
removed (the original claim's demand that such parents be absent is
refuted by `C7_overlay_counterexample`). -/
theorem C7_overlayContract_amended (dest src r : List (String × Val))
    (h : overrideObjectMetaSystemFields dest src = .ok r) :
    ∀ f ∈ objectMetaSystemFields,
      (∀ v, nestedField (.map src) ["metadata", f] = .ok (some v) →
        nestedField (.map r) ["metadata", f] = .ok (some v)) ∧
      (nestedField (.map src) ["metadata", f] = .ok none →
        hasNested (.map r) ["metadata", f] = false) := by
  have hnd : objectMetaSystemFields.Nodup := by
    simp [objectMetaSystemFields]
  exact overrideFieldsLoop_spec objectMetaSystemFields hnd dest src r h

/-- Counterexample for C7 as stated: with dest `{"metadata":{"uid":"x"}}`
and src `{}` (none of the seven fields present in src), the overlay
succeeds and returns `{"metadata":{}}` — the emptied intermediate parent
"metadata" is still present in dest, where the claim requires any
intermediate parent map left empty by the removal to be absent. -/
theorem C7_overlay_counterexample :
    overrideObjectMetaSystemFields [("metadata", Val.map [("uid", Val.str "x")])] []
      = .ok [("metadata", Val.map [])] ∧
    hasKey [("metadata", Val.map [])] "metadata" = true := by
  exact ⟨rfl, rfl⟩

/-- Witness for C7's amended contract at a concrete pair: src supplies
uid "y", which ends up readable in the result; src has no selfLink, so
selfLink is structurally absent from the result. -/
theorem C7_overlayContract_amended_witness :
    overrideObjectMetaSystemFields
        [("metadata", Val.map [("uid", Val.str "x")])]
        [("metadata", Val.map [("uid", Val.str "y")])]
      = .ok [("metadata", Val.map [("uid", Val.str "y")])] ∧
    ("uid" ∈ objectMetaSystemFields ∧ "selfLink" ∈ objectMetaSystemFields) ∧
    nestedField (.map [("metadata", Val.map [("uid", Val.str "y")])]) ["metadata", "uid"]
      = .ok (some (Val.str "y")) ∧
    hasNested (.map [("metadata", Val.map [("uid", Val.str "y")])]) ["metadata", "selfLink"]
      = false := by
  have h : overrideObjectMetaSystemFields
      [("metadata", Val.map [("uid", Val.str "x")])]
      [("metadata", Val.map [("uid", Val.str "y")])]
      = .ok [("metadata", Val.map [("uid", Val.str "y")])] := by rfl
  have huid : "uid" ∈ objectMetaSystemFields := by simp [objectMetaSystemFields]
  have hsl : "selfLink" ∈ objectMetaSystemFields := by simp [objectMetaSystemFields]
  refine ⟨h, ⟨huid, hsl⟩, ?_, ?_⟩
  · exact (C7_overlayContract_amended _ _ _ h "uid" huid).1 (Val.str "y") (by rfl)
  · exact (C7_overlayContract_amended _ _ _ h "selfLink" hsl).2 (by rfl)

/-- Every value has positive size. -/
theorem vsize_pos (v : Val) : 1 ≤ v.vsize := by
  cases v <;> simp [Val.vsize]

/-- An entry's value is smaller than the enclosing map value. -/
theorem vsize_lt_of_mem_entries (es : List (String × Val)) (k : String) (v : Val)
    (h : (k, v) ∈ es) : v.vsize < (Val.map es).vsize := by
  have : v.vsize < 1 + Val.msize es := by
    induction es with
    | nil => simp at h
    | cons e rest ih =>
      rcases List.mem_cons.mp h with h1 | h1
      · obtain ⟨rfl, rfl⟩ := Prod.mk.injEq .. ▸ h1
        simp [Val.msize]
        omega
      · have := ih h1
        obtain ⟨k2, w⟩ := e
        simp [Val.msize] at this ⊢
        omega
  simpa [Val.vsize] using this

/-- A found entry is a member. -/
theorem getEntry_mem (es : List (String × Val)) (k : String) (v : Val)
    (h : getEntry es k = some v) : (k, v) ∈ es := by
  induction es with
  | nil => simp [getEntry] at h
  | cons e rest ih =>
    obtain ⟨k2, w⟩ := e
    by_cases hk : k2 = k
    · subst hk
      simp [getEntry] at h
      subst h
      exact List.mem_cons_self _ _
    · rw [getEntry, if_neg hk] at h
      exact List.mem_cons_of_mem _ (ih h)

/-- In a well-formed entry list, membership determines the lookup. -/
theorem wf_getEntry_of_mem (es : List (String × Val)) (k : String) (v : Val)
    (hwf : Val.wfEntries es = true) (h : (k, v) ∈ es) : getEntry es k = some v := by
  induction es with
  | nil => simp at h
  | cons e rest ih =>
    obtain ⟨k2, w⟩ := e
    rw [Val.wfEntries] at hwf
    simp only [Bool.and_eq_true] at hwf
    rcases List.mem_cons.mp h with h1 | h1
    · obtain ⟨rfl, rfl⟩ := Prod.mk.injEq .. ▸ h1
      simp [getEntry]
    · have hk : ¬k2 = k := by
        intro hc
        subst hc
        have hmem : k2 ∈ rest.map Prod.fst := List.mem_map.mpr ⟨(k2, v), h1, rfl⟩
        have := hwf.1.1
        rw [keysContains_eq_hasKey] at this
        have : hasKey rest k2 = false := by simpa using this
        rw [hasKey, ih hwf.2] at this
        · simp at this
        · exact h1
      rw [getEntry, if_neg hk]
      exact ih hwf.2 h1

/-- Well-formedness descends to entry values. -/
theorem wf_of_mem_entries (es : List (String × Val)) (k : String) (v : Val)
    (hwf : Val.wfEntries es = true) (h : (k, v) ∈ es) : Val.wf v = true := by
  induction es with
  | nil => simp at h
  | cons e rest ih =>
    obtain ⟨k2, w⟩ := e
    rw [Val.wfEntries] at hwf
    simp only [Bool.and_eq_true] at hwf
    rcases List.mem_cons.mp h with h1 | h1
    · obtain ⟨rfl, rfl⟩ := Prod.mk.injEq .. ▸ h1
      exact hwf.1.2
    · exact ih hwf.2 h1

/-- The scalar-lists-only predicate descends to entry values. -/
theorem scalarListsOnly_of_mem_entries (es : List (String × Val)) (k : String) (v : Val)
    (hs : Val.scalarListsOnlyEntries es = true) (h : (k, v) ∈ es) :
    Val.scalarListsOnly v = true := by
  induction es with
  | nil => simp at h
  | cons e rest ih =>
    obtain ⟨k2, w⟩ := e
    rw [Val.scalarListsOnlyEntries] at hs
    simp only [Bool.and_eq_true] at hs
    rcases List.mem_cons.mp h with h1 | h1
    · obtain ⟨rfl, rfl⟩ := Prod.mk.injEq .. ▸ h1
      exact hs.1
    · exact ih hs.2 h1

/-- Rewriting an entry with its current value is a no-op. -/
theorem putEntry_self (m : List (String × Val)) (k : String) (v : Val)
    (h : getEntry m k = some v) : putEntry m k v = m := by
  induction m with
  | nil => simp [getEntry] at h
  | cons e rest ih =>
    obtain ⟨k2, w⟩ := e
    by_cases hk : k2 = k
    · subst hk
      simp [getEntry] at h
      subst h
      simp [putEntry]
    · rw [getEntry, if_neg hk] at h
      rw [putEntry, if_neg hk, ih h]

/-- The deletion pass with identical lastApplied and desired key sets
removes nothing. -/
theorem deletionPass_self (om lm : List (String × Val)) :
    (om.filter fun e => !(hasKey lm e.1 && !hasKey lm e.1)) = om := by
  apply List.filter_eq_self.mpr
  intro e _
  cases hasKey lm e.1 <;> simp

/-- A family of lists each empty or containing a non-map never yields a
merge key. -/
theorem detect_scalarLists (oa la da : List Val)
    (ho : oa = [] ∨ ∃ x ∈ oa, x.isMap = false)
    (hl : la = [] ∨ ∃ x ∈ la, x.isMap = false)
    (hd : da = [] ∨ ∃ x ∈ da, x.isMap = false) :
    detectListMapKey [oa, la, da] = "" := by
  rcases ho with rfl | ho
  · rcases hl with rfl | hl
    · rcases hd with rfl | hd
      · rfl
      · obtain ⟨x, hx, hxm⟩ := hd
        rw [detectListMapKey, scanLists_nonmap _ _ ⟨da, by simp, x, hx, hxm⟩]
    · obtain ⟨x, hx, hxm⟩ := hl
      rw [detectListMapKey, scanLists_nonmap _ _ ⟨la, by simp, x, hx, hxm⟩]
  · obtain ⟨x, hx, hxm⟩ := ho
    rw [detectListMapKey, scanLists_nonmap _ _ ⟨oa, by simp, x, hx, hxm⟩]

/-- Unpacking `Val.scalarListsOnly` at a list value. -/
theorem scalarListsOnly_list_disj (xs : List Val)
    (h : Val.scalarListsOnly (.list xs) = true) :
    xs = [] ∨ ∃ x ∈ xs, x.isMap = false := by
  rw [Val.scalarListsOnly] at h
  simp only [Bool.and_eq_true, Bool.or_eq_true] at h
  rcases h.1 with h1 | h1
  · exact Or.inl (List.isEmpty_iff.mp h1)
  · obtain ⟨x, hx, hxm⟩ := List.any_eq_true.mp h1
    exact Or.inr ⟨x, hx, by simpa using hxm⟩

/-- The upsert loop is the identity when every processed entry already
stores its own merge result. -/
theorem mergeUpsert_id (lm : List (String × Val)) :
    ∀ (es acc : List (String × Val)),
    (∀ k dv, (k, dv) ∈ es → ∃ w, getEntry acc k = some w ∧
        mergeToObserved w (getDefault lm k) dv = w) →
    mergeUpsert acc lm es = acc := by
  intro es
  induction es with
  | nil => intro acc _; rw [mergeUpsert]
  | cons e rest ih =>
    intro acc h
    obtain ⟨k, dv⟩ := e
    obtain ⟨w, hw, hmerge⟩ := h k dv (List.mem_cons_self _ _)
    rw [mergeUpsert]
    have hdef : getDefault acc k = w := by simp [getDefault, hw]
    rw [hdef, hmerge, putEntry_self acc k w hw]
    exact ih acc fun k2 dv2 h2 => h k2 dv2 (List.mem_cons_of_mem _ h2)

/-- What the upsert loop stores at a desired key: the merge of the
original observed value, the lastApplied value and the desired value
(key uniqueness of the desired entries is essential: Go maps cannot
repeat a key). -/
theorem mergeUpsert_lookup (es : List (String × Val)) (hwf : Val.wfEntries es = true) :
    ∀ (k : String) (dv : Val), (k, dv) ∈ es →
    ∀ (acc lm : List (String × Val)),
    getEntry (mergeUpsert acc lm es) k
      = some (mergeToObserved (getDefault acc k) (getDefault lm k) dv) := by
  induction es with
  | nil => intro k dv h; simp at h
  | cons e rest ih =>
    intro k dv h acc lm
    obtain ⟨k2, dv2⟩ := e
    rw [Val.wfEntries] at hwf
    simp only [Bool.and_eq_true] at hwf
    rcases List.mem_cons.mp h with h1 | h1
    · obtain ⟨rfl, rfl⟩ := Prod.mk.injEq .. ▸ h1
      rw [mergeUpsert]
      have hrest : hasKey rest k = false := by
        have := hwf.1.1
        rw [keysContains_eq_hasKey] at this
        simpa using this
      rw [mergeUpsert_getEntry_notdesired rest _ lm k hrest, getEntry_putEntry, if_pos rfl]
    · have hk : ¬k2 = k := by
        intro hc
        subst hc
        have := hwf.1.1
        rw [keysContains_eq_hasKey] at this
        have hfalse : hasKey rest k2 = false := by simpa using this
        rw [hasKey, wf_getEntry_of_mem rest k2 dv hwf.2 h1] at hfalse
        simp at hfalse
      rw [mergeUpsert, ih hwf.2 k dv h1]
      have : getDefault (putEntry acc k2
          (mergeToObserved (getDefault acc k2) (getDefault lm k2) dv2)) k
          = getDefault acc k := by
        rw [getDefault, getEntry_putEntry, if_neg hk, getDefault]
      rw [this]

/-- A looked-up (or absent, hence null) map value is well-formed when
the map is. -/
theorem wf_getDefault (es : List (String × Val)) (k : String)
    (hwf : Val.wfEntries es = true) : Val.wf (getDefault es k) = true := by
  rw [getDefault]
  cases hget : getEntry es k with
  | none => rfl
  | some v => exact wf_of_mem_entries es k v hwf (getEntry_mem es k v hget)

/-- Likewise for the scalar-lists-only predicate. -/
theorem scalarListsOnly_getDefault (es : List (String × Val)) (k : String)
    (hs : Val.scalarListsOnlyEntries es = true) :
    Val.scalarListsOnly (getDefault es k) = true := by
  rw [getDefault]
  cases hget : getEntry es k with
  | none => rfl
  | some v => exact scalarListsOnly_of_mem_entries es k v hs (getEntry_mem es k v hget)

/-- Merging a well-formed document with no list-of-maps candidates into
itself (as observed, lastApplied and desired all at once) is the
identity, bounded-size version for the induction. -/
theorem mergeSelf_bounded : ∀ (n : Nat) (d : Val), d.vsize ≤ n →
    Val.wf d = true → Val.scalarListsOnly d = true →
    mergeToObserved d d d = d := by
  intro n
  induction n with
  | zero =>
    intro d hle _ _
    exact absurd hle (by have := vsize_pos d; omega)
  | succ n ihn =>
    intro d hle hwf hs
    cases d with
    | null => simp [mergeToObserved]
    | str s => simp [mergeToObserved]
    | int m => simp [mergeToObserved]
    | flt m => simp [mergeToObserved]
    | bool b => simp [mergeToObserved]
    | other z => simp [mergeToObserved]
    | list xs =>
      have hdet := detect_scalarLists xs xs xs (scalarListsOnly_list_disj xs hs)
        (scalarListsOnly_list_disj xs hs) (scalarListsOnly_list_disj xs hs)
      simp only [mergeToObserved]
      simp [asListAssert, mergeArrayToObserved, hdet]
    | map dm =>
      rw [Val.wf] at hwf
      rw [Val.scalarListsOnly] at hs
      simp only [mergeToObserved]
      simp only [asMapAssert, Option.getD_some]
      rw [mergeMapToObserved, deletionPass_self]
      have hU : mergeUpsert dm dm dm = dm := by
        apply mergeUpsert_id
        intro k dv hmem
        refine ⟨dv, wf_getEntry_of_mem dm k dv hwf hmem, ?_⟩
        have hdef : getDefault dm k = dv := by
          simp [getDefault, wf_getEntry_of_mem dm k dv hwf hmem]
        rw [hdef]
        have hsize : dv.vsize ≤ n := by
          have h1 := vsize_lt_of_mem_entries dm k dv hmem
          omega
        exact ihn dv hsize (wf_of_mem_entries dm k dv hwf hmem)
          (scalarListsOnly_of_mem_entries dm k dv hs hmem)
      rw [hU]

/-- Self-merge identity for well-formed documents with no list-of-maps
candidates. -/
theorem mergeSelf (d : Val) (hwf : Val.wf d = true)
    (hs : Val.scalarListsOnly d = true) : mergeToObserved d d d = d :=
  mergeSelf_bounded d.vsize d le_rfl hwf hs

/-- Re-merging a merge result against the same desired state reproduces
it, bounded-size version for the induction. -/
theorem mergeTwice_bounded : ∀ (n : Nat) (d o : Val), d.vsize ≤ n →
    Val.wf d = true → Val.wf o = true →
    Val.scalarListsOnly d = true → Val.scalarListsOnly o = true →
    mergeToObserved (mergeToObserved o d d) d d = mergeToObserved o d d := by
  intro n
  induction n with
  | zero =>
    intro d o hle _ _ _ _
    exact absurd hle (by have := vsize_pos d; omega)
  | succ n ihn =>
    intro d o hle hwfd hwfo hsd hso
    cases o with
    | null => simp only [mergeToObserved]; exact mergeSelf d hwfd hsd
    | str s => simp only [mergeToObserved]; exact mergeSelf d hwfd hsd
    | int m => simp only [mergeToObserved]; exact mergeSelf d hwfd hsd
    | flt m => simp only [mergeToObserved]; exact mergeSelf d hwfd hsd
    | bool b => simp only [mergeToObserved]; exact mergeSelf d hwfd hsd
    | other z => simp only [mergeToObserved]; exact mergeSelf d hwfd hsd
    | list oa =>
      have hoa := scalarListsOnly_list_disj oa hso
      cases d with
      | list da =>
        have hda := scalarListsOnly_list_disj da hsd
        have hr : mergeToObserved (.list oa) (.list da) (.list da) = .list da := by
          simp only [mergeToObserved]
          simp [asListAssert, mergeArrayToObserved, detect_scalarLists oa da da hoa hda hda]
        rw [hr]
        exact mergeSelf (.list da) hwfd hsd
      | null =>
        have hr : mergeToObserved (.list oa) Val.null Val.null = .list [] := by
          simp only [mergeToObserved]
          simp [asListAssert, mergeArrayToObserved,
            detect_scalarLists oa [] [] hoa (Or.inl rfl) (Or.inl rfl)]
        rw [hr]
        simp only [mergeToObserved]
        simp [asListAssert, mergeArrayToObserved,
          show detectListMapKey [[], [], []] = "" from rfl]
      | str s =>
        have hr : mergeToObserved (.list oa) (.str s) (.str s) = .list [] := by
          simp only [mergeToObserved]
          simp [asListAssert, mergeArrayToObserved,
            detect_scalarLists oa [] [] hoa (Or.inl rfl) (Or.inl rfl)]
        rw [hr]
        simp only [mergeToObserved]
        simp [asListAssert, mergeArrayToObserved,
          show detectListMapKey [[], [], []] = "" from rfl]
      | int m =>
        have hr : mergeToObserved (.list oa) (.int m) (.int m) = .list [] := by
          simp only [mergeToObserved]
          simp [asListAssert, mergeArrayToObserved,
            detect_scalarLists oa [] [] hoa (Or.inl rfl) (Or.inl rfl)]
        rw [hr]
        simp only [mergeToObserved]
        simp [asListAssert, mergeArrayToObserved,
          show detectListMapKey [[], [], []] = "" from rfl]
      | flt m =>
        have hr : mergeToObserved (.list oa) (.flt m) (.flt m) = .list [] := by
          simp only [mergeToObserved]
          simp [asListAssert, mergeArrayToObserved,
            detect_scalarLists oa [] [] hoa (Or.inl rfl) (Or.inl rfl)]
        rw [hr]
        simp only [mergeToObserved]
        simp [asListAssert, mergeArrayToObserved,
          show detectListMapKey [[], [], []] = "" from rfl]
      | bool b =>
        have hr : mergeToObserved (.list oa) (.bool b) (.bool b) = .list [] := by
          simp only [mergeToObserved]
          simp [asListAssert, mergeArrayToObserved,
            detect_scalarLists oa [] [] hoa (Or.inl rfl) (Or.inl rfl)]
        rw [hr]
        simp only [mergeToObserved]
        simp [asListAssert, mergeArrayToObserved,
          show detectListMapKey [[], [], []] = "" from rfl]
      | other z =>
        have hr : mergeToObserved (.list oa) (.other z) (.other z) = .list [] := by
          simp only [mergeToObserved]
          simp [asListAssert, mergeArrayToObserved,
            detect_scalarLists oa [] [] hoa (Or.inl rfl) (Or.inl rfl)]
        rw [hr]
        simp only [mergeToObserved]
        simp [asListAssert, mergeArrayToObserved,
          show detectListMapKey [[], [], []] = "" from rfl]
      | map dm =>
        have hr : mergeToObserved (.list oa) (.map dm) (.map dm) = .list [] := by
          simp only [mergeToObserved]
          simp [asListAssert, mergeArrayToObserved,
            detect_scalarLists oa [] [] hoa (Or.inl rfl) (Or.inl rfl)]
        rw [hr]
        simp only [mergeToObserved]
        simp [asListAssert, mergeArrayToObserved,
          show detectListMapKey [[], [], []] = "" from rfl]
    | map om =>
      rw [Val.wf] at hwfo
      rw [Val.scalarListsOnly] at hso
      cases d with
      | map dm =>
        rw [Val.wf] at hwfd
        rw [Val.scalarListsOnly] at hsd
        have hr : mergeToObserved (.map om) (.map dm) (.map dm)
            = .map (mergeUpsert om dm dm) := by
          simp only [mergeToObserved]
          simp only [asMapAssert, Option.getD_some]
          rw [mergeMapToObserved, deletionPass_self]
        rw [hr]
        simp only [mergeToObserved]
        simp only [asMapAssert, Option.getD_some]
        rw [mergeMapToObserved, deletionPass_self]
        have hU : mergeUpsert (mergeUpsert om dm dm) dm dm = mergeUpsert om dm dm := by
          apply mergeUpsert_id
          intro k dv hmem
          refine ⟨mergeToObserved (getDefault om k) (getDefault dm k) dv,
            mergeUpsert_lookup dm hwfd k dv hmem om dm, ?_⟩
          have hdef : getDefault dm k = dv := by
            simp [getDefault, wf_getEntry_of_mem dm k dv hwfd hmem]
          rw [hdef]
          have hsize : dv.vsize ≤ n := by
            have h1 := vsize_lt_of_mem_entries dm k dv hmem
            omega
          exact ihn dv (getDefault om k) hsize
            (wf_of_mem_entries dm k dv hwfd hmem)
            (wf_getDefault om k hwfo)
            (scalarListsOnly_of_mem_entries dm k dv hsd hmem)
            (scalarListsOnly_getDefault om k hso)
        rw [hU]
      | null =>
        have hr : mergeToObserved (.map om) Val.null Val.null = .map om := by
          simp only [mergeToObserved]
          simp only [asMapAssert, Option.getD_none]
          rw [mergeMapToObserved, deletionPass_self, mergeUpsert]
        rw [hr, hr]
      | str s =>
        have hr : mergeToObserved (.map om) (.str s) (.str s) = .map om := by
          simp only [mergeToObserved]
          simp only [asMapAssert, Option.getD_none]
          rw [mergeMapToObserved, deletionPass_self, mergeUpsert]
        rw [hr, hr]
      | int m =>
        have hr : mergeToObserved (.map om) (.int m) (.int m) = .map om := by
          simp only [mergeToObserved]
          simp only [asMapAssert, Option.getD_none]
          rw [mergeMapToObserved, deletionPass_self, mergeUpsert]
        rw [hr, hr]
      | flt m =>
        have hr : mergeToObserved (.map om) (.flt m) (.flt m) = .map om := by
          simp only [mergeToObserved]
          simp only [asMapAssert, Option.getD_none]
          rw [mergeMapToObserved, deletionPass_self, mergeUpsert]
        rw [hr, hr]
      | bool b =>
        have hr : mergeToObserved (.map om) (.bool b) (.bool b) = .map om := by
          simp only [mergeToObserved]
          simp only [asMapAssert, Option.getD_none]
          rw [mergeMapToObserved, deletionPass_self, mergeUpsert]
        rw [hr, hr]
      | other z =>
        have hr : mergeToObserved (.map om) (.other z) (.other z) = .map om := by
          simp only [mergeToObserved]
          simp only [asMapAssert, Option.getD_none]
          rw [mergeMapToObserved, deletionPass_self, mergeUpsert]
        rw [hr, hr]
      | list da =>
        have hr : mergeToObserved (.map om) (.list da) (.list da) = .map om := by
          simp only [mergeToObserved]
          simp only [asMapAssert, Option.getD_none]
          rw [mergeMapToObserved, deletionPass_self, mergeUpsert]
        rw [hr, hr]

/-- C8 (amended): merge idempotence — m2 = Merge(m1, desired, desired)
structurally equal to m1 = Merge(observed, desired, desired) — holds for
all well-formed top-level maps in which no list, at any depth of either
document, is a non-empty list consisting entirely of maps (so the
merge-key detector never engages).  As stated, for arbitrary documents,
the claim fails: a desired list of maps whose elements share a merge-key
value is deduplicated only on the second pass
(`C8_idempotence_counterexample`). -/
theorem C8_idempotence_amended (om dm : List (String × Val))
    (hwfo : Val.wf (.map om) = true) (hwfd : Val.wf (.map dm) = true)
    (hso : Val.scalarListsOnly (.map om) = true)
    (hsd : Val.scalarListsOnly (.map dm) = true) :
    ∃ m1, Merge om dm dm = .map m1 ∧ Merge m1 dm dm = .map m1 := by
  have hr : mergeToObserved (.map om) (.map dm) (.map dm)
      = .map (mergeUpsert om dm dm) := by
    simp only [mergeToObserved]
    simp only [asMapAssert, Option.getD_some]
    rw [mergeMapToObserved, deletionPass_self]
  have hp := mergeTwice_bounded (Val.map dm).vsize (.map dm) (.map om) le_rfl
    hwfd hwfo hsd hso
  rw [hr] at hp
  exact ⟨mergeUpsert om dm dm, by simp only [Merge]; exact hr,
    by simp only [Merge]; exact hp⟩

/-- Counterexample for C8 as stated: with observed `{}` and desired
`{"l":[{"name":"a","v":"1"},{"name":"a","v":"2"}]}` (a list of maps with
a duplicate merge-key value), the first merge copies desired's list
verbatim (observed has no value at "l", the leaf rule applies), but the
second merge detects merge key "name", keys the list by it (last write
wins), and reconstitutes `[{"name":"a","v":"2"},{"name":"a","v":"2"}]`:
m2 differs from m1. -/
theorem C8_idempotence_counterexample :
    Merge []
      [("l", Val.list [Val.map [("name", Val.str "a"), ("v", Val.str "1")],
                       Val.map [("name", Val.str "a"), ("v", Val.str "2")]])]
      [("l", Val.list [Val.map [("name", Val.str "a"), ("v", Val.str "1")],
                       Val.map [("name", Val.str "a"), ("v", Val.str "2")]])]
      = Val.map [("l", Val.list [Val.map [("name", Val.str "a"), ("v", Val.str "1")],
                                 Val.map [("name", Val.str "a"), ("v", Val.str "2")]])] ∧
    Merge [("l", Val.list [Val.map [("name", Val.str "a"), ("v", Val.str "1")],
                           Val.map [("name", Val.str "a"), ("v", Val.str "2")]])]
      [("l", Val.list [Val.map [("name", Val.str "a"), ("v", Val.str "1")],
                       Val.map [("name", Val.str "a"), ("v", Val.str "2")]])]
      [("l", Val.list [Val.map [("name", Val.str "a"), ("v", Val.str "1")],
                       Val.map [("name", Val.str "a"), ("v", Val.str "2")]])]
      = Val.map [("l", Val.list [Val.map [("name", Val.str "a"), ("v", Val.str "2")],
                                 Val.map [("name", Val.str "a"), ("v", Val.str "2")]])] ∧
    Val.map [("l", Val.list [Val.map [("name", Val.str "a"), ("v", Val.str "2")],
                             Val.map [("name", Val.str "a"), ("v", Val.str "2")]])]
      ≠ Val.map [("l", Val.list [Val.map [("name", Val.str "a"), ("v", Val.str "1")],
                                 Val.map [("name", Val.str "a"), ("v", Val.str "2")]])] := by
  refine ⟨?_, ?_, by simp⟩
  · simp [Merge, mergeToObserved, mergeMapToObserved, mergeUpsert,
      asMapAssert, asListAssert, getDefault, getEntry, putEntry, hasKey]
  · simp [Merge, mergeToObserved, mergeMapToObserved, mergeUpsert,
      mergeArrayToObserved, mergeListMapToObserved, asMapAssert, asListAssert,
      getDefault, getEntry, putEntry, hasKey, detectListMapKey,
      scanListsForCommonKeys, pruneCommonKeys, knownMergeKeys, memCommonKeys,
      makeMapFromList, makeMapFromListAux, stringMergeKey, Val.asMapEntries?,
      reconstructLoop1, reconstructLoop2]

/-- Witness for the amended C8 at a concrete pair of map-only documents:
observed has replicas 3, desired manages a labels sub-map. -/
theorem C8_idempotence_amended_witness :
    ∃ m1, Merge [("replicas", Val.int 3)]
        [("labels", Val.map [("a", Val.str "1")])]
        [("labels", Val.map [("a", Val.str "1")])] = .map m1 ∧
      Merge m1 [("labels", Val.map [("a", Val.str "1")])]
        [("labels", Val.map [("a", Val.str "1")])] = .map m1 := by
  have h1 : Val.wf (.map [("replicas", Val.int 3)]) = true := by
    simp [Val.wf, Val.wfEntries]
  have h2 : Val.wf (.map [("labels", Val.map [("a", Val.str "1")])]) = true := by
    simp [Val.wf, Val.wfEntries]
  have h3 : Val.scalarListsOnly (.map [("replicas", Val.int 3)]) = true := by
    simp [Val.scalarListsOnly, Val.scalarListsOnlyEntries]
  have h4 : Val.scalarListsOnly (.map [("labels", Val.map [("a", Val.str "1")])]) = true := by
    simp [Val.scalarListsOnly, Val.scalarListsOnlyEntries]
  exact C8_idempotence_amended _ _ h1 h2 h3 h4
